import Mathlib

/-!
Verification of the luxfi/fhe TFHE core against its specification.

This file gives a shallow embedding, in Lean 4, of the parts of the
luxfi/fhe repository that the specification's claims are about:

* the boolean-gate evaluator (`evaluator.go`): linear ciphertext
  preparation (sum, doubling, negation, constant offset) followed by a
  programmable bootstrap with a gate-specific test polynomial;
* the final modulus switch of `sampleExtractAndKeySwitch`
  (`evaluator.go`, the `scaleFactor` rescale);
* sample extraction (`evaluator.go` and the GPU `SampleExtract`);
* negacyclic monomial rotation (`RLWEMulByMonomial` and `polyRotate`
  in the GPU engine);
* the GPU NTT (`gpu/ntt.go`): forward/inverse Cooley-Tukey transforms;
* the ripple-carry integer adder of the bitwise integer layer;
* the integer-layer test tables (`evm_types_test.go`, the embedded CGO
  test sources) for `Mul` and for serialization round-trips.

Machine integers are embedded as `Nat` (with explicit `% q` where the
code reduces) or as `ZMod q` where the code's values are canonical
residues; fallible operations return `Except`.  Definitions marked
`Modelled from the spec` embed behaviour whose implementing code is not
part of the core sources (encryption/decryption encodings, the blind
rotation contract, the test-polynomial bands, the ripple-carry adder of
the bitwise evaluator); everything else is translated directly from the
source files named in each doc comment.
-/

namespace LuxFhe

/-! ## Parameters

From `DefaultConfig` in the GPU engine (and the spec's `PN10QP27`-style
example sizes): LWE modulus `q = 2^15`, RLWE modulus `Q = 2^27`,
ring degree `N = 1024`.  The bit encoding scale is `Δ = q/8`. -/

/-- LWE modulus `q = 1 << 15` (source: `DefaultConfig` field `q`). -/
def qLWE : ℕ := 2 ^ 15

/-- RLWE/blind-rotation modulus `Q = 1 << 27` (source: `DefaultConfig` field `Q`). -/
def qBR : ℕ := 2 ^ 27

/-- Bit-encoding scale `Δ = q/8` (spec §3: `Δ = q_lwe/8`; GPU engine `mu = Q/8`). -/
def deltaLWE : ℕ := qLWE / 8

/-! ## Boolean gates at the phase level (claim C1)

The evaluator's gates (`evaluator.go`) perform a linear preparation on
LWE ciphertexts and then a programmable bootstrap with a gate test
polynomial.  The linear maps below mirror `addCiphertexts` (coefficient
sum), `doubleCiphertext` (sum with itself) and `negateCiphertext`
(coefficient negation); on a noiseless ciphertext they act on the phase
`b − ⟨a,s⟩` exactly as written.  Encryption, decryption and the
bootstrap contract are modelled from the spec (their implementing code
is not part of the core sources):

* Modelled from the spec (§3, invariant 3): `enc(false) = 0`,
  `enc(true) = Δ`, and decryption recovers `m` whenever the phase is
  within `Δ/2` of `Δ·m`.
* Modelled from the spec (§4.2): a bootstrap with test polynomial `T`
  maps a ciphertext of phase `φ` to a fresh ciphertext of phase `T(φ)`.
* Modelled from the spec (§4.3 gate table): the test polynomial bands:
  AND outputs `Δ` iff the sum phase is at least `1.5Δ`; OR iff at least
  `0.5Δ`; XOR iff the doubled sum lies in the middle band around `2Δ`
  (which excludes the `(true,true)` doubled sum `4Δ` produced by the
  negacyclic wrap); NAND/NOR/XNOR are the pointwise negations. -/

/-- Phase of an LWE bit ciphertext, an element of `Z_q`. -/
abbrev Phase := ZMod qLWE

/-- Modelled from the spec: canonical bit encoding `false ↦ 0`, `true ↦ Δ`. -/
def encryptBit (b : Bool) : Phase := if b then (deltaLWE : Phase) else 0

/-- Modelled from the spec: decryption succeeds on phases within `Δ/2` of `Δ·m`;
a phase decodes to `true` iff it lies in `[Δ/2, 3Δ/2)`. -/
def decryptBit (φ : Phase) : Bool :=
  decide (deltaLWE / 2 ≤ φ.val ∧ φ.val < deltaLWE + deltaLWE / 2)

/-- Phase action of `addCiphertexts` (`evaluator.go`): coefficient-wise sum. -/
def addPhase (c1 c2 : Phase) : Phase := c1 + c2

/-- Phase action of `doubleCiphertext` (`evaluator.go`): sum with itself. -/
def doublePhase (c : Phase) : Phase := c + c

/-- Modelled from the spec: AND test polynomial, `Δ` iff the phase is `≥ 1.5Δ`. -/
def testPolyAND (φ : Phase) : Phase :=
  if 3 * (deltaLWE / 2) ≤ φ.val then (deltaLWE : Phase) else 0

/-- Modelled from the spec: OR test polynomial, `Δ` iff the phase is `≥ 0.5Δ`. -/
def testPolyOR (φ : Phase) : Phase :=
  if deltaLWE / 2 ≤ φ.val then (deltaLWE : Phase) else 0

/-- Modelled from the spec: NAND test polynomial, negation of AND. -/
def testPolyNAND (φ : Phase) : Phase :=
  if 3 * (deltaLWE / 2) ≤ φ.val then 0 else (deltaLWE : Phase)

/-- Modelled from the spec: NOR test polynomial, negation of OR. -/
def testPolyNOR (φ : Phase) : Phase :=
  if deltaLWE / 2 ≤ φ.val then 0 else (deltaLWE : Phase)

/-- Modelled from the spec: XOR test polynomial, `Δ` iff the doubled sum lies in
the middle band `(Δ, 3Δ)` around `2Δ`; the `(true,true)` doubled sum `4Δ`
falls outside this band, which is how the negacyclic wrap is exploited. -/
def testPolyXOR (φ : Phase) : Phase :=
  if deltaLWE < φ.val ∧ φ.val < 3 * deltaLWE then (deltaLWE : Phase) else 0

/-- Modelled from the spec: XNOR test polynomial, negation of XOR. -/
def testPolyXNOR (φ : Phase) : Phase :=
  if deltaLWE < φ.val ∧ φ.val < 3 * deltaLWE then 0 else (deltaLWE : Phase)

/-- Modelled from the spec (§4.2 bootstrap contract): bootstrapping with test
polynomial `T` yields a fresh ciphertext whose phase is `T` of the input phase. -/
def bootstrapPhase (c : Phase) (T : Phase → Phase) : Phase := T c

/-- `Evaluator.AND` (`evaluator.go`): sum then bootstrap with the AND polynomial. -/
def evalAND (c1 c2 : Phase) : Phase := bootstrapPhase (addPhase c1 c2) testPolyAND

/-- `Evaluator.OR` (`evaluator.go`): sum then bootstrap with the OR polynomial. -/
def evalOR (c1 c2 : Phase) : Phase := bootstrapPhase (addPhase c1 c2) testPolyOR

/-- `Evaluator.NAND` (`evaluator.go`): sum then bootstrap with the NAND polynomial. -/
def evalNAND (c1 c2 : Phase) : Phase := bootstrapPhase (addPhase c1 c2) testPolyNAND

/-- `Evaluator.NOR` (`evaluator.go`): sum then bootstrap with the NOR polynomial. -/
def evalNOR (c1 c2 : Phase) : Phase := bootstrapPhase (addPhase c1 c2) testPolyNOR

/-- `Evaluator.XOR` (`evaluator.go`): sum, double, bootstrap with the XOR polynomial. -/
def evalXOR (c1 c2 : Phase) : Phase :=
  bootstrapPhase (doublePhase (addPhase c1 c2)) testPolyXOR

/-- `Evaluator.XNOR` (`evaluator.go`): sum, double, bootstrap with the XNOR polynomial. -/
def evalXNOR (c1 c2 : Phase) : Phase :=
  bootstrapPhase (doublePhase (addPhase c1 c2)) testPolyXNOR

/-! ## Modulus switch of `sampleExtractAndKeySwitch` (claim C4)

The source scales each coefficient with
`scaled := uint64(float64(x) * scaleFactor)` where
`scaleFactor = float64(qLWE) / float64(qBR)`, then reduces `% qLWE`.
At the power-of-two moduli `q = 2^15`, `Q = 2^27` every step of that
float computation is exact (the ratio is the exact power `2^-12` and
multiplying by it only shifts the exponent), and the `uint64`
conversion truncates, so the computed value is exactly
`⌊x·q/Q⌋ % q`. -/

/-- The rescale of `sampleExtractAndKeySwitch` (`evaluator.go`):
`uint64(float64(x) * (float64(qL)/float64(qB)))`, which at the
power-of-two default moduli computes exactly `⌊x·qL/qB⌋`. -/
def rescaleCoeff (qL qB x : ℕ) : ℕ := x * qL / qB

/-- The full per-coefficient modulus switch of the source: rescale then `% qL`. -/
def moduSwitch (qL qB x : ℕ) : ℕ := rescaleCoeff qL qB x % qL

/-- Round-half-to-even division: the nearest integer to `a / b`, ties going to
the even neighbour (the rounding the claim asserts for the modulus switch). -/
def rheDiv (a b : ℕ) : ℕ :=
  if 2 * (a % b) < b then a / b
  else if b < 2 * (a % b) then a / b + 1
  else if a / b % 2 = 0 then a / b else a / b + 1

/-! ## Integer-layer `Mul` test tables (claim C3)

The bitwise evaluator's `Mul` implementation is not part of the core
sources; the sources do contain its tests.  `TestBitwiseMulUint8`
(`evm_types_test.go`) and the CGO-mode test `TestCGOMode/IntegerArithmetic`
(embedded test sources) call `eval.Mul`, require that no error is
returned, and require the decrypted result to equal the product. -/

/-- Test cases of `TestBitwiseMulUint8` (`evm_types_test.go`): triples
`(a, b, expect)` for 8-bit `Mul`; the test requires `NoError` and
`expect` as the decrypted result. -/
def mulUint8Cases : List (ℕ × ℕ × ℕ) :=
  [(0, 0, 0), (1, 1, 1), (10, 10, 100), (15, 17, 255), (16, 16, 0), (20, 20, 144)]

/-- The 4-bit `Mul` case of `TestCGOMode/IntegerArithmetic` (embedded test
sources): `Mul(3, 4)` must return without error and decrypt to `12`. -/
def mulUint4Case : ℕ × ℕ × ℕ := (3, 4, 12)

/-- A `Mul` behaviour satisfies the repository's `Mul` tests when it returns
`ok` with the expected plaintext on every test case. -/
def MulTestsPass (mul : ℕ → ℕ → Except Unit ℕ) : Prop :=
  (∀ c ∈ mulUint8Cases, mul c.1 c.2.1 = Except.ok c.2.2) ∧
    mul mulUint4Case.1 mulUint4Case.2.1 = Except.ok mulUint4Case.2.2

/-- The behaviour claim C3 asserts for `Mul`: every call returns the
`NotImplemented` error and never a result. -/
def MulAlwaysNotImplemented (mul : ℕ → ℕ → Except Unit ℕ) : Prop :=
  ∀ a b, mul a b = Except.error ()

/-! ## Sample extraction (claim C5)

`sampleExtractAndKeySwitch` (`evaluator.go`, the extraction block) sets,
for an RLWE ciphertext `(c0, c1)` in coefficient form,
`b = c0[0]`, `a[0] = c1[0]` and `a[i] = qBR - c1[NBR-i]` for
`1 ≤ i < NBR`.  The GPU `SampleExtract` (external-product file) builds
the same vector with a permutation, a sign vector `(-1)` for `i ≥ 1`,
and a conditional `+Q` adjustment of negative entries.  Coefficient
arrays are embedded as functions `ℕ → ℕ` with values in `[0, Q)`. -/

/-- The `b` component extracted by `sampleExtractAndKeySwitch`: `c0[0]`. -/
def sampleExtractB (c0 : ℕ → ℕ) : ℕ := c0 0

/-- The `a` vector extracted by `sampleExtractAndKeySwitch`:
`a[0] = c1[0]`, and `a[i] = qB - c1[N - i]` for `i ≥ 1`. -/
def sampleExtractA (N qB : ℕ) (c1 : ℕ → ℕ) : ℕ → ℕ := fun i =>
  if i = 0 then c1 0 else qB - c1 (N - i)

/-- The `a` vector of the GPU `SampleExtract`: index `0` keeps `a[0]`;
index `i ≥ 1` takes `a[N-i]`, multiplies by the sign `-1`, and adds `Q`
back when the result is negative (so a zero coefficient stays `0`). -/
def gpuSampleExtractA (N qB : ℕ) (a : ℕ → ℕ) : ℕ → ℕ := fun i =>
  if i = 0 then a 0
  else if a (N - i) = 0 then 0 else qB - a (N - i)

/-! ## Negacyclic monomial rotation (claim C6)

Two implementations in the GPU engine multiply a ring element by `X^k`:

* `RLWEMulByMonomial` normalises `k` into `[0, 2N)`, computes the source
  index `(i - k) mod 2N`, and negates (`Q - v`) exactly when that index
  is `≥ N` — the `X^N = -1` rule over the full `2N` range;
* `polyRotate` (external-product file; `batchPolyRotate` is identical)
  first reduces `k mod N` and flips the sign only on the positions that
  wrap modulo `N`, so the information in the high bit of `k` is lost. -/

/-- Rotation of one coefficient vector by `RLWEMulByMonomial` (GPU engine):
`k` normalised to `[0, 2N)`, source index `(i - k) mod 2N`, negacyclic
negation when the unreduced index is `≥ N`. -/
def rlweMulByMonomial (N qB k : ℕ) (p : ℕ → ℕ) : ℕ → ℕ :=
  let kn := k % (2 * N)
  fun i =>
    let ni := (i + 2 * N - kn) % (2 * N)
    if N ≤ ni then qB - p (ni % N) else p (ni % N)

/-- Rotation by `polyRotate` (GPU external-product file): `k` reduced
`mod N`, source index `(i - k) mod N`, sign `-1` on the wrapped positions
`i < k mod N`, negative values adjusted by `+Q` (zero stays zero). -/
def polyRotate (N qB k : ℕ) (p : ℕ → ℕ) : ℕ → ℕ :=
  let kv := k % N
  fun i =>
    let src := (i + N - kv) % N
    if i < kv then (if p src = 0 then 0 else qB - p src) else p src

/-! ## LWE ciphertexts and the evaluator's linear operations (claims C7, C10)

`Ciphertext` in the source wraps an RLWE pair over the LWE ring: two
coefficient vectors `Value[0]`, `Value[1]` and an `IsNTT` flag.  The
linear helpers of `evaluator.go` allocate a fresh result ciphertext
(`rlwe.NewCiphertext` / `CopyNew`) and write only to it. -/

/-- An LWE-ring ciphertext (`rlwe.Ciphertext` as used in `evaluator.go`):
coefficient vectors `val0 = Value[0]`, `val1 = Value[1]` and the NTT flag. -/
structure Ct (n q : ℕ) where
  val0 : Fin n → ZMod q
  val1 : Fin n → ZMod q
  isNTT : Bool

/-- `addCiphertexts` (`evaluator.go`): fresh result, coefficient-wise sum of
both components, NTT flag copied from the first operand. -/
def addCiphertexts (c1 c2 : Ct n q) : Ct n q :=
  ⟨fun i => c1.val0 i + c2.val0 i, fun i => c1.val1 i + c2.val1 i, c1.isNTT⟩

/-- `doubleCiphertext` (`evaluator.go`): fresh result, each component added to
itself, NTT flag copied. -/
def doubleCiphertext (c : Ct n q) : Ct n q :=
  ⟨fun i => c.val0 i + c.val0 i, fun i => c.val1 i + c.val1 i, c.isNTT⟩

/-- `negateCiphertext` (`evaluator.go`): fresh result, both components negated
mod `q`, NTT flag copied. -/
def negateCiphertext (c : Ct n q) : Ct n q :=
  ⟨fun i => -c.val0 i, fun i => -c.val1 i, c.isNTT⟩

/-- `Evaluator.NOT` (`evaluator.go`): exactly `negateCiphertext`; no bootstrap
is invoked and the signature returns no error. -/
def evaluatorNOT (c : Ct n q) : Ct n q := negateCiphertext c

/-- `addConstant` (`evaluator.go`): copy the ciphertext, take `Value[1]` out of
NTT form if needed, add the constant to coefficient `0` mod `q`, transform
back.  The transforms are abstract parameters `ntt`/`intt` here; the frame
property below holds for any choice. -/
def addConstant (ntt intt : (Fin n → ZMod q) → Fin n → ZMod q)
    (c : Ct n q) (k : ZMod q) : Ct n q :=
  let v1 := if c.isNTT then intt c.val1 else c.val1
  let v1u : Fin n → ZMod q := fun i => if (i : ℕ) = 0 then v1 i + k else v1 i
  ⟨c.val0, if c.isNTT then ntt v1u else v1u, c.isNTT⟩

/-- Modelled from the spec (§4.3 gate table): the constant offset that the
claimed form of NOT adds to the `b` term, the encoding scale `Δ` (from
`NOT(a) = 1 - a` at plaintext scale `Δ`). -/
def notOffsetSpec : ZMod qLWE := (deltaLWE : ZMod qLWE)

/-! ### Heap-level view of allocation (claim C10)

The Go helpers receive pointers into a heap of ciphertexts and append a
freshly allocated result; they contain no write to an operand.  The
store-passing embedding makes that explicit: every operation returns the
old store with the new ciphertext appended, together with its index. -/

/-- A heap of ciphertexts, indexed by position. -/
abbrev CtStore (n q : ℕ) := List (Ct n q)

/-- The all-zero ciphertext, used as the out-of-range default when reading
the store. -/
def zeroCt (n q : ℕ) : Ct n q := ⟨fun _ => 0, fun _ => 0, false⟩

/-- Allocation: `rlwe.NewCiphertext` followed by the writes that fill the
result; the store grows by one entry at the end. -/
def allocResult (st : CtStore n q) (c : Ct n q) : CtStore n q × ℕ :=
  (st ++ [c], st.length)

/-- Store-level `addCiphertexts`: read both operands, allocate the sum. -/
def addCiphertextsOp (st : CtStore n q) (i j : ℕ) : CtStore n q × ℕ :=
  allocResult st (addCiphertexts (st.getD i (zeroCt n q)) (st.getD j (zeroCt n q)))

/-- Store-level `doubleCiphertext`. -/
def doubleCiphertextOp (st : CtStore n q) (i : ℕ) : CtStore n q × ℕ :=
  allocResult st (doubleCiphertext (st.getD i (zeroCt n q)))

/-- Store-level `negateCiphertext`. -/
def negateCiphertextOp (st : CtStore n q) (i : ℕ) : CtStore n q × ℕ :=
  allocResult st (negateCiphertext (st.getD i (zeroCt n q)))

/-- Store-level `addConstant` (the `CopyNew` allocates the fresh result; all
subsequent writes go to the copy). -/
def addConstantOp (ntt intt : (Fin n → ZMod q) → Fin n → ZMod q)
    (st : CtStore n q) (i : ℕ) (k : ZMod q) : CtStore n q × ℕ :=
  allocResult st (addConstant ntt intt (st.getD i (zeroCt n q)) k)

/-! ## Ripple-carry integer addition (claim C2)

The bitwise evaluator's `Add` is not part of the core sources; it is
modelled from the spec (§4.5): little-endian bit encoding, LSB-first
ripple-carry with `s_i = a_i XOR b_i XOR carry` and
`carry = MAJORITY(a_i, b_i, carry)`, initial carry zero, the last bit
dropping the carry-out.  Gate outputs are taken at plaintext level
(their ciphertext-level correctness is the subject of claim C1). -/

/-- `MAJORITY` at plaintext level (`evaluator.go` MAJORITY semantics):
true iff at least two inputs are true. -/
def majBool (a b c : Bool) : Bool := (a && b) || (a && c) || (b && c)

/-- Modelled from the spec (§4.4): little-endian `w`-bit encoding of `x`. -/
def encodeBits : ℕ → ℕ → List Bool
  | 0, _ => []
  | w + 1, x => (x % 2 = 1) :: encodeBits w (x / 2)

/-- Modelled from the spec (§4.4): little-endian decoding of a bit vector. -/
def decodeBits : List Bool → ℕ
  | [] => 0
  | b :: bs => (if b then 1 else 0) + 2 * decodeBits bs

/-- Modelled from the spec (§4.5 Add): LSB-first ripple-carry;
`s_i = a_i XOR b_i XOR c`, next carry `MAJORITY(a_i, b_i, c)`;
the final carry-out is dropped (wrap mod `2^w`). -/
def rippleAdd : List Bool → List Bool → Bool → List Bool
  | a :: as, b :: bs, c => xor (xor a b) c :: rippleAdd as bs (majBool a b c)
  | _, _, _ => []

/-- Modelled from the spec (§4.5): `Add` on `w`-bit integers — encode both
operands, ripple with initial carry `false` (encrypted zero), decode. -/
def bitwiseAdd (w a b : ℕ) : List Bool :=
  rippleAdd (encodeBits w a) (encodeBits w b) false

/-- The carry that falls off the top of the ripple-carry chain. -/
def carryOut : List Bool → List Bool → Bool → Bool
  | a :: as, b :: bs, c => carryOut as bs (majBool a b c)
  | _, _, c => c

/-! ## Serialization round-trip coverage (claim C8)

The serializers themselves are not part of the core sources; the sources
contain the round-trip tests.  `TestCGOSerialization` (embedded test
sources) runs the `SecretKey` subtest but skips the `PublicKey` and
`BootstrapKey` subtests with `t.Skip` messages recording known bugs. -/

/-- Status of one serialization subtest in `TestCGOSerialization`. -/
inductive SubtestStatus where
  | run
  | skipped (reason : String)
deriving DecidableEq

/-- The three serialization subtests of `TestCGOSerialization` with their
statuses, translated from the embedded test sources. -/
def cgoSerializationSubtests : List (String × SubtestStatus) :=
  [("SecretKey", SubtestStatus.run),
   ("PublicKey", SubtestStatus.skipped
      "TODO(fhe#2): PublicKey serialization has noise issues"),
   ("BootstrapKey", SubtestStatus.skipped
      "TODO(fhe#2): BootstrapKey gob interface deserialization bug")]

/-! ## The GPU NTT (claim C9)

`gpu/ntt.go` implements an iterative transform over `Z_Q^N`, `N = 2^L`:

* `NTTForward`: bit-reversal permutation, then Cooley-Tukey butterfly
  stages `s = 0 .. L-1`; at stage `s` the butterfly width is
  `m = 2^(s+1)`, position `g·m + j` (for `j < m/2`) pairs with
  `g·m + j + m/2`, the right element is multiplied by the stage twiddle
  `ω_m^j` with `ω_m = ω^(N/m)` (`NewNTTContext` stores, per stage, the
  successive powers `ω_m^0, ω_m^1, …` in a flat array, and the stage
  slices of `NTTForward`/`NTTInverse` read back exactly that block), and
  the pair becomes `(u + t·v, u - t·v)` with all arithmetic mod `Q`
  (`addModArray`/`subModArray`/`barrettMulModArray`);
* `NTTInverse`: the same stages in reverse order with the inverse
  twiddles `(ω^(Q-2))_m^j` (`modInverse` is `powMod(·, Q-2, Q)`), the
  butterfly `(u, v) ↦ (u + v, (u - v)·t⁻¹)`, then the bit-reversal
  permutation, then scaling by `nInv = powMod(N, Q-2, Q)`.

Coefficient vectors are embedded as functions `ℕ → ZMod Q`; each stage
rewrites every position exactly as the gather/`butterflyScatter`
pipeline of the source does. -/

/-- `reverseBits` (`gpu/ntt.go`): reversal of the low `l` bits of `x`
(the loop shifts the low bit of `x` into the result `l` times; each
consumed bit lands at the top, hence the `2^l` weight of `x % 2`). -/
def revBits : ℕ → ℕ → ℕ
  | 0, _ => 0
  | l + 1, x => revBits l (x / 2) + x % 2 * 2 ^ l

/-- The bit-reversal permutation applied by `Take(·, bitRevIndices, 1)`. -/
def bitRevPerm (L : ℕ) (f : ℕ → ZMod Q) : ℕ → ZMod Q := fun i => f (revBits L i)

/-- Forward stage-`s` twiddle of butterfly index `j` (`NewNTTContext`):
`ω_m^j` with `ω_m = ω^(N/m)`, `N = 2^L`, `m = 2^(s+1)`. -/
def stageTw (Q : ℕ) (ω : ZMod Q) (L s j : ℕ) : ZMod Q :=
  (ω ^ (2 ^ L / 2 ^ (s + 1))) ^ j

/-- Inverse stage-`s` twiddle (`NewNTTContext`): the same powers of
`omegaInv = powMod(omega, Q-2, Q)`. -/
def stageTwInv (Q : ℕ) (ω : ZMod Q) (L s j : ℕ) : ZMod Q :=
  ((ω ^ (Q - 2)) ^ (2 ^ L / 2 ^ (s + 1))) ^ j

/-- One Cooley-Tukey stage of `NTTForward`: at position `i` with
`j = i % m`, the left slot (`j < m/2`) becomes `u + t·v` and the right
slot becomes `u - t·v`, where `v` is the partner coefficient and `t`
the butterfly twiddle. -/
def nttStageF (Q m : ℕ) (tw : ℕ → ZMod Q) (f : ℕ → ZMod Q) : ℕ → ZMod Q := fun i =>
  let j := i % m
  if j < m / 2 then f i + tw j * f (i + m / 2)
  else f (i - m / 2) - tw (j - m / 2) * f i

/-- One Gentleman-Sande stage of `NTTInverse`: the left slot becomes
`u + v` and the right slot `(u - v)·t` with the inverse twiddle `t`. -/
def nttStageI (Q m : ℕ) (tw : ℕ → ZMod Q) (f : ℕ → ZMod Q) : ℕ → ZMod Q := fun i =>
  let j := i % m
  if j < m / 2 then f i + f (i + m / 2)
  else (f (i - m / 2) - f i) * tw (j - m / 2)

/-- `NTTForward` (`gpu/ntt.go`): bit-reversal permutation followed by the
Cooley-Tukey stages `s = 0 .. L-1`. -/
def nttForward (Q : ℕ) (ω : ZMod Q) (L : ℕ) (f : ℕ → ZMod Q) : ℕ → ZMod Q :=
  (List.range L).foldl
    (fun acc s => nttStageF Q (2 ^ (s + 1)) (stageTw Q ω L s) acc)
    (bitRevPerm L f)

/-- `NTTInverse` (`gpu/ntt.go`): the Gentleman-Sande stages in reverse
order (`for stage := Log2N-1; stage >= 0; stage--`), then the
bit-reversal permutation, then scaling by `nInv = powMod(N, Q-2, Q)`. -/
def nttInverse (Q : ℕ) (ω : ZMod Q) (L : ℕ) (f : ℕ → ZMod Q) : ℕ → ZMod Q :=
  let g := (List.range L).reverse.foldl
    (fun acc s => nttStageI Q (2 ^ (s + 1)) (stageTwInv Q ω L s) acc) f
  fun i => ((2 ^ L : ℕ) : ZMod Q) ^ (Q - 2) * bitRevPerm L g i

/-- Concrete coefficient vector used as the C6 failing input:
`1, 2, 3, 4` on indices `0..3`. -/
def c6poly : ℕ → ℕ := fun i => i % 4 + 1

/-- Concrete LWE ciphertext used as the C7 counterexample input. -/
def c7ct : Ct 1 qLWE := ⟨fun _ => 7, fun _ => 5, false⟩

/-!
# Theorems
-/

/-- C1: for every pair of plaintext bits and each of the six two-input
gates of `evaluator.go`, decrypting the gate output of fresh encryptions
yields the boolean function — in particular `XOR(true, true)` decrypts
to `false` via the doubled-sum wrap. -/
theorem c1_boolean_gates_correct : ∀ a b : Bool,
    decryptBit (evalAND (encryptBit a) (encryptBit b)) = (a && b) ∧
    decryptBit (evalOR (encryptBit a) (encryptBit b)) = (a || b) ∧
    decryptBit (evalXOR (encryptBit a) (encryptBit b)) = xor a b ∧
    decryptBit (evalNAND (encryptBit a) (encryptBit b)) = !(a && b) ∧
    decryptBit (evalNOR (encryptBit a) (encryptBit b)) = !(a || b) ∧
    decryptBit (evalXNOR (encryptBit a) (encryptBit b)) = !(xor a b) := by
  decide

/-- C3 counterexample: the claim that `Mul` always returns the
`NotImplemented` error and never a result contradicts the repository's
own `Mul` tests, which require `ok` results on every test case. -/
theorem c3_counterexample :
    ¬ ∃ mul : ℕ → ℕ → Except Unit ℕ, MulAlwaysNotImplemented mul ∧ MulTestsPass mul := by
  rintro ⟨mul, hni, hpass, -⟩
  have h := hpass (0, 0, 0) (by simp [mulUint8Cases])
  rw [hni] at h
  exact absurd h (by simp)

/-- C3 amended: the integer-layer tests exercise `Mul` as a working
operation; every expected result in the 8-bit table is the product
modulo `2^8`, and the CGO 4-bit case is the product modulo `2^4`. -/
theorem c3_mul_tests_demand_products :
    mulUint8Cases.all (fun c => c.2.2 == c.1 * c.2.1 % 256) = true ∧
    mulUint4Case.2.2 = mulUint4Case.1 * mulUint4Case.2.1 % 16 := by
  decide

/-- C4 counterexample: at the source's power-of-two moduli the rescale of
`sampleExtractAndKeySwitch` truncates, so at coefficient `x = 6144`
(exact ratio `1.5`) it differs from round-half-to-even, which gives `2`. -/
theorem c4_counterexample :
    moduSwitch qLWE qBR 6144 ≠ rheDiv (6144 * qLWE) qBR % qLWE := by
  decide

/-- C4 amended: the modulus switch truncates; for every coefficient the
round-half-to-even value is the truncated value or its successor (they
differ exactly on the upper half of each rounding interval). -/
theorem c4_truncation_vs_round_half_even :
    ∀ x : ℕ, rheDiv (x * qLWE) qBR = rescaleCoeff qLWE qBR x ∨
      rheDiv (x * qLWE) qBR = rescaleCoeff qLWE qBR x + 1 := by
  intro x
  unfold rheDiv rescaleCoeff
  split
  · exact Or.inl rfl
  · split
    · exact Or.inr rfl
    · split
      · exact Or.inl rfl
      · exact Or.inr rfl

/-- C5: sample extraction is exactly `b = C0[0]`, `a[0] = C1[0]`,
`a[i] = -C1[N-i] mod Q` for `1 ≤ i < N`, in both the evaluator and the
GPU implementation (whose zero-coefficient adjustment agrees mod `Q`). -/
theorem c5_sample_extract (N qB : ℕ) (c0 c1 : ℕ → ℕ) (hc1 : ∀ j, c1 j < qB)
    (i : ℕ) (h1 : 1 ≤ i) (_hiN : i < N) :
    sampleExtractB c0 = c0 0 ∧
    sampleExtractA N qB c1 0 = c1 0 ∧
    ((sampleExtractA N qB c1 i : ℕ) : ZMod qB) = -((c1 (N - i) : ℕ) : ZMod qB) ∧
    ((gpuSampleExtractA N qB c1 i : ℕ) : ZMod qB) = -((c1 (N - i) : ℕ) : ZMod qB) := by
  have hi0 : i ≠ 0 := by omega
  refine ⟨rfl, by simp [sampleExtractA], ?_, ?_⟩
  · simp only [sampleExtractA, if_neg hi0]
    rw [Nat.cast_sub (le_of_lt (hc1 (N - i)))]
    simp [ZMod.natCast_self]
  · simp only [gpuSampleExtractA, if_neg hi0]
    by_cases hz : c1 (N - i) = 0
    · simp [hz]
    · rw [if_neg hz, Nat.cast_sub (le_of_lt (hc1 (N - i)))]
      simp [ZMod.natCast_self]

/-- C5 witness: the extraction rule evaluated at `N = 4`, `Q = 17`,
concrete coefficient vectors, index `i = 1`. -/
theorem c5_witness :
    (∀ j : ℕ, (j + 3) % 17 < 17) ∧ 1 ≤ 1 ∧ 1 < 4 ∧
    ((sampleExtractA 4 17 (fun j => (j + 3) % 17) 1 : ℕ) : ZMod 17)
      = -(((4 - 1 + 3) % 17 : ℕ) : ZMod 17) :=
  ⟨fun j => Nat.mod_lt _ (by decide), le_refl 1, by decide,
    (c5_sample_extract 4 17 (fun j => j % 17) (fun j => (j + 3) % 17)
      (fun j => Nat.mod_lt _ (by decide)) 1 (le_refl 1) (by decide)).2.2.1⟩

/-- C6: `polyRotate` reduces the rotation index mod `N` and so produces,
for `k = N + 1 ∈ [N, 2N)`, the same vector as for `k - N = 1` instead of
its pointwise negation (here `N = 4`, `Q = 17`, coefficients `1..4`);
`RLWEMulByMonomial` on the same input does satisfy the negacyclic rule. -/
theorem c6_polyrotate_drops_negacyclic_sign :
    (∀ i < 4, polyRotate 4 17 5 c6poly i = polyRotate 4 17 1 c6poly i) ∧
    ¬ (∀ i < 4, ((polyRotate 4 17 5 c6poly i : ℕ) : ZMod 17)
        = -((polyRotate 4 17 1 c6poly i : ℕ) : ZMod 17)) ∧
    (∀ i < 4, ((rlweMulByMonomial 4 17 5 c6poly i : ℕ) : ZMod 17)
        = -((rlweMulByMonomial 4 17 1 c6poly i : ℕ) : ZMod 17)) := by
  decide

/-- C7 counterexample: `Evaluator.NOT` adds no constant offset to the
`b` term — its `b` coefficient is the bare negation, which differs from
negation plus the spec's offset `Δ`. -/
theorem c7_counterexample :
    (evaluatorNOT c7ct).val1 0 ≠ -(c7ct.val1 0) + notOffsetSpec := by
  decide

/-- C7 amended: `NOT` performs no bootstrap and cannot fail (it is exactly
`negateCiphertext`, a total function), and its result is the bare
coefficient-wise negation of both components with the NTT flag preserved
and no constant offset added. -/
theorem c7_not_is_pure_negation (n q : ℕ) (c : Ct n q) (i : Fin n) :
    evaluatorNOT c = negateCiphertext c ∧
    (evaluatorNOT c).val0 i = -(c.val0 i) ∧
    (evaluatorNOT c).val1 i = -(c.val1 i) ∧
    (evaluatorNOT c).isNTT = c.isNTT :=
  ⟨rfl, rfl, rfl, rfl⟩

/-- C8: the serialization round-trip test suite runs only the `SecretKey`
subtest; the `PublicKey` and `BootstrapKey` subtests are skipped with
messages recording known serialization/deserialization bugs. -/
theorem c8_serialization_tests_skip_broken_keys :
    (cgoSerializationSubtests.filter
      (fun s => decide (s.2 = SubtestStatus.run))).length = 1 ∧
    cgoSerializationSubtests.any (fun s => decide (s.2 = SubtestStatus.skipped
      "TODO(fhe#2): BootstrapKey gob interface deserialization bug")) = true ∧
    cgoSerializationSubtests.any (fun s => decide (s.2 = SubtestStatus.skipped
      "TODO(fhe#2): PublicKey serialization has noise issues")) = true := by
  decide

/-- C10: each linear preparation step of the evaluator allocates a fresh
result at the end of the store and leaves every existing ciphertext —
coefficient vectors and NTT flag — untouched. -/
theorem c10_linear_ops_preserve_operands (n q : ℕ)
    (ntt intt : (Fin n → ZMod q) → Fin n → ZMod q)
    (st : CtStore n q) (i j k : ℕ) (con : ZMod q) (hk : k < st.length) :
    (addCiphertextsOp st i j).1.getD k (zeroCt n q) = st.getD k (zeroCt n q) ∧
    (doubleCiphertextOp st i).1.getD k (zeroCt n q) = st.getD k (zeroCt n q) ∧
    (negateCiphertextOp st i).1.getD k (zeroCt n q) = st.getD k (zeroCt n q) ∧
    (addConstantOp ntt intt st i con).1.getD k (zeroCt n q) = st.getD k (zeroCt n q) ∧
    (addCiphertextsOp st i j).1.length = st.length + 1 := by
  have h : ∀ c : Ct n q, (st ++ [c]).getD k (zeroCt n q) = st.getD k (zeroCt n q) := by
    intro c
    rw [List.getD_eq_getElem?_getD, List.getD_eq_getElem?_getD,
      List.getElem?_append, if_pos hk]
  exact ⟨h _, h _, h _, h _, by simp [addCiphertextsOp, allocResult]⟩

/-- C10 witness: the frame property evaluated on a one-element store. -/
theorem c10_witness :
    0 < ([zeroCt 1 2] : CtStore 1 2).length ∧
    (addCiphertextsOp [zeroCt 1 2] 0 0).1.getD 0 (zeroCt 1 2)
      = ([zeroCt 1 2] : CtStore 1 2).getD 0 (zeroCt 1 2) :=
  ⟨by simp,
    (c10_linear_ops_preserve_operands 1 2 id id [zeroCt 1 2] 0 0 0 0 (by simp)).1⟩

/-! ### Ripple-carry adder correctness (claim C2) -/

/-- Little-endian decoding of a cons cell. -/
lemma decodeBits_cons (b : Bool) (bs : List Bool) :
    decodeBits (b :: bs) = (if b then 1 else 0) + 2 * decodeBits bs := rfl

/-- A `w`-bit decode is bounded by `2^w`. -/
lemma decodeBits_lt (bs : List Bool) : decodeBits bs < 2 ^ bs.length := by
  induction bs with
  | nil => simp [decodeBits]
  | cons b bs ih =>
    rw [decodeBits_cons, List.length_cons, pow_succ]
    cases b <;> simp <;> omega

/-- `encodeBits` produces a vector of the requested width. -/
lemma encodeBits_length (w x : ℕ) : (encodeBits w x).length = w := by
  induction w generalizing x with
  | zero => rfl
  | succ w ih => rw [encodeBits, List.length_cons, ih]

/-- Ripple addition preserves the (common) width. -/
lemma rippleAdd_length : ∀ (as bs : List Bool) (c : Bool),
    as.length = bs.length → (rippleAdd as bs c).length = as.length
  | [], [], _, _ => rfl
  | [], _ :: _, _, h => by simp at h
  | _ :: _, [], _, h => by simp at h
  | a :: as, b :: bs, c, h => by
    rw [rippleAdd, List.length_cons, List.length_cons,
      rippleAdd_length as bs (majBool a b c) (by simpa using h)]

/-- Exact ripple-carry identity: the decoded sum plus the weighted
carry-out equals the sum of the decoded inputs and the carry-in. -/
lemma rippleAdd_exact : ∀ (as bs : List Bool) (c : Bool),
    as.length = bs.length →
    decodeBits (rippleAdd as bs c)
        + 2 ^ as.length * (if carryOut as bs c then 1 else 0)
      = decodeBits as + decodeBits bs + (if c then 1 else 0)
  | [], [], c, _ => by simp [rippleAdd, carryOut, decodeBits]
  | [], _ :: _, _, h => by simp at h
  | _ :: _, [], _, h => by simp at h
  | a :: as, b :: bs, c, h => by
    have hlen : as.length = bs.length := by simpa using h
    have hIH := rippleAdd_exact as bs (majBool a b c) hlen
    have hbit : (if xor (xor a b) c then (1:ℕ) else 0)
        + 2 * (if majBool a b c then 1 else 0)
        = (if a then 1 else 0) + (if b then 1 else 0) + (if c then 1 else 0) := by
      cases a <;> cases b <;> cases c <;> rfl
    rw [rippleAdd, carryOut, decodeBits_cons, decodeBits_cons, decodeBits_cons,
      List.length_cons]
    have hexp : (2:ℕ) ^ (as.length + 1)
        * (if carryOut as bs (majBool a b c) then 1 else 0)
        = 2 * (2 ^ as.length * (if carryOut as bs (majBool a b c) then 1 else 0)) := by
      rw [pow_succ]; ring
    rw [hexp]
    omega

/-- Splitting a modulus `2*m` along the low bit. -/
lemma add_two_mul_mod (r t m : ℕ) (hr : r < 2) (hm : 0 < m) :
    (r + 2 * t) % (2 * m) = r + 2 * (t % m) := by
  have hd : t = m * (t / m) + t % m := (Nat.div_add_mod t m).symm
  calc (r + 2 * t) % (2 * m)
      = (r + 2 * (t % m) + 2 * m * (t / m)) % (2 * m) := by
        conv_lhs => rw [hd]
        ring_nf
    _ = (r + 2 * (t % m)) % (2 * m) := by
        rw [Nat.mul_comm 2 m] at *
        exact Nat.add_mul_mod_self_left _ _ _
    _ = r + 2 * (t % m) := by
        have := Nat.mod_lt t hm
        exact Nat.mod_eq_of_lt (by omega)

/-- Decoding an encoded value truncates it to the width. -/
lemma decodeBits_encodeBits (w x : ℕ) : decodeBits (encodeBits w x) = x % 2 ^ w := by
  induction w generalizing x with
  | zero => simp [encodeBits, decodeBits, Nat.mod_one]
  | succ w ih =>
    rw [encodeBits, decodeBits_cons, ih]
    have hbit : (if (x % 2 = 1 : Bool) then (1:ℕ) else 0) = x % 2 := by
      rcases Nat.mod_two_eq_zero_or_one x with h | h <;> simp [h]
    rw [hbit, ← add_two_mul_mod (x % 2) (x / 2) (2 ^ w)
      (Nat.mod_lt x (by decide)) (Nat.pos_pow_of_pos w (by decide)),
      Nat.mod_add_div, pow_succ, Nat.mul_comm]

/-- C2: for every width `w` and all `a, b < 2^w`, the ripple-carry `Add`
decodes to `(a + b) mod 2^w` — the sum wraps modulo `2^w`. -/
theorem c2_bitwise_add_mod (w a b : ℕ) (ha : a < 2 ^ w) (hb : b < 2 ^ w) :
    decodeBits (bitwiseAdd w a b) = (a + b) % 2 ^ w := by
  have hlena : (encodeBits w a).length = w := encodeBits_length w a
  have hlenb : (encodeBits w b).length = w := encodeBits_length w b
  have hexact := rippleAdd_exact (encodeBits w a) (encodeBits w b) false
    (by rw [hlena, hlenb])
  rw [hlena] at hexact
  have hA : decodeBits (encodeBits w a) = a := by
    rw [decodeBits_encodeBits, Nat.mod_eq_of_lt ha]
  have hB : decodeBits (encodeBits w b) = b := by
    rw [decodeBits_encodeBits, Nat.mod_eq_of_lt hb]
  rw [hA, hB] at hexact
  simp only [if_neg Bool.false_ne_true, Nat.add_zero] at hexact
  have hlt : decodeBits (bitwiseAdd w a b) < 2 ^ w := by
    have := decodeBits_lt (bitwiseAdd w a b)
    rwa [bitwiseAdd, rippleAdd_length _ _ _ (by rw [hlena, hlenb]), hlena] at this
  rw [← hexact, bitwiseAdd, Nat.add_mul_mod_self_left]
  rw [bitwiseAdd] at hlt
  exact (Nat.mod_eq_of_lt hlt).symm

/-- C2 witness: the wrap case `Add` of `255` and `1` in width `8` decodes to `0`. -/
theorem c2_witness :
    255 < 2 ^ 8 ∧ 1 < 2 ^ 8 ∧ decodeBits (bitwiseAdd 8 255 1) = (255 + 1) % 2 ^ 8 :=
  ⟨by decide, by decide, c2_bitwise_add_mod 8 255 1 (by decide) (by decide)⟩

/-! ### The NTT round trip (claim C9) -/

/-! ### Bit-reversal lemmas -/

lemma revBits_lt (l x : ℕ) : revBits l x < 2 ^ l := by
  induction l generalizing x with
  | zero => simp [revBits]
  | succ l ih =>
    rw [revBits, pow_succ]
    have h1 := ih (x / 2)
    have h2 : x % 2 < 2 := Nat.mod_lt x (by decide)
    nlinarith

lemma revBits_split (l x : ℕ) (hx : x < 2 ^ (l + 1)) :
    revBits (l + 1) x = 2 * revBits l (x % 2 ^ l) + x / 2 ^ l := by
  induction l generalizing x with
  | zero =>
    rw [revBits, revBits, revBits]
    simp only [pow_zero, pow_one] at *
    omega
  | succ l ih =>
    rw [revBits]
    have hx2 : x / 2 < 2 ^ (l + 1) := by
      rw [pow_succ] at hx; omega
    rw [ih (x / 2) hx2]
    conv_rhs => rw [revBits]
    have e1 : x % 2 ^ (l + 1) / 2 = x / 2 % 2 ^ l := by
      rw [pow_succ, Nat.mul_comm, Nat.mod_mul_right_div_self]
    have e2 : x % 2 ^ (l + 1) % 2 = x % 2 := by
      apply Nat.mod_mod_of_dvd
      exact dvd_pow_self 2 (Nat.succ_ne_zero l)
    have e3 : x / 2 / 2 ^ l = x / 2 ^ (l + 1) := by
      rw [Nat.div_div_eq_div_mul, pow_succ, Nat.mul_comm]
    rw [e1, e2, e3]
    ring

lemma revBits_revBits (l x : ℕ) (hx : x < 2 ^ l) :
    revBits l (revBits l x) = x := by
  induction l generalizing x with
  | zero => simp [revBits]; omega
  | succ l ih =>
    have hr : revBits l (x / 2) < 2 ^ l := revBits_lt l (x / 2)
    have hx2 : x / 2 < 2 ^ l := by
      rw [pow_succ] at hx; omega
    have hy : revBits (l + 1) x < 2 ^ (l + 1) := revBits_lt (l + 1) x
    rw [revBits_split l _ hy]
    have hmod2 : x % 2 < 2 := Nat.mod_lt x (by decide)
    have hsplit : revBits (l + 1) x = revBits l (x / 2) + x % 2 * 2 ^ l := rfl
    have hm : revBits (l + 1) x % 2 ^ l = revBits l (x / 2) := by
      rw [hsplit]
      rcases Nat.mod_two_eq_zero_or_one x with h | h
      · rw [h, Nat.zero_mul, Nat.add_zero]
        exact Nat.mod_eq_of_lt hr
      · rw [h, one_mul, Nat.add_mod_right]
        exact Nat.mod_eq_of_lt hr
    have hd : revBits (l + 1) x / 2 ^ l = x % 2 := by
      rw [hsplit]
      rcases Nat.mod_two_eq_zero_or_one x with h | h
      · rw [h, Nat.zero_mul, Nat.add_zero]
        exact Nat.div_eq_of_lt hr
      · rw [h, one_mul, Nat.add_div_right _ (Nat.pos_pow_of_pos l (by decide)),
          Nat.div_eq_of_lt hr]
    rw [hm, hd, ih (x / 2) hx2]
    omega

/-! ### Butterfly stage lemmas -/

lemma mod_add_half (m i : ℕ) (hm : m % 2 = 0) (h : i % m < m / 2) :
    (i + m / 2) % m = i % m + m / 2 := by
  conv_lhs => rw [← Nat.div_add_mod i m]
  rw [Nat.add_assoc, Nat.mul_add_mod]
  exact Nat.mod_eq_of_lt (by omega)

lemma mod_sub_half (m i : ℕ) (hm : m % 2 = 0) (h : m / 2 ≤ i % m) :
    (i - m / 2) % m = i % m - m / 2 := by
  rcases Nat.eq_zero_or_pos m with hm0 | hm0
  · simp [hm0]
  obtain ⟨K, hK⟩ : ∃ K, m * (i / m) = K := ⟨_, rfl⟩
  have hd : K + i % m = i := by rw [← hK]; exact Nat.div_add_mod i m
  have hmlt : i % m < m := Nat.mod_lt i hm0
  have heq : i - m / 2 = K + (i % m - m / 2) := by omega
  rw [heq, ← hK, Nat.mul_add_mod]
  exact Nat.mod_eq_of_lt (by omega)

lemma stageI_stageF (Q m : ℕ) (twF twI : ℕ → ZMod Q) (hm : m % 2 = 0) (hm0 : 0 < m)
    (htw : ∀ j, j < m / 2 → twI j * twF j = 1) (f : ℕ → ZMod Q) (i : ℕ) :
    nttStageI Q m twI (nttStageF Q m twF f) i = 2 * f i := by
  have hhalf : m / 2 + m / 2 = m := by omega
  simp only [nttStageI, nttStageF]
  by_cases h : i % m < m / 2
  · have hpart : (i + m / 2) % m = i % m + m / 2 := mod_add_half m i hm h
    have hnot : ¬ ((i + m / 2) % m < m / 2) := by omega
    rw [if_pos h, if_pos h, if_neg hnot, hpart, Nat.add_sub_cancel, Nat.add_sub_cancel]
    ring
  · have hle : m / 2 ≤ i % m := le_of_not_lt h
    have hige : m / 2 ≤ i := le_trans hle (Nat.mod_le i m)
    have hpart : (i - m / 2) % m = i % m - m / 2 := mod_sub_half m i hm hle
    have hmlt : i % m < m := Nat.mod_lt i hm0
    have hyes : (i - m / 2) % m < m / 2 := by omega
    rw [if_neg h, if_neg h, if_pos hyes, hpart, Nat.sub_add_cancel hige]
    have ht := htw (i % m - m / 2) (by omega)
    calc (f (i - m / 2) + twF (i % m - m / 2) * f i
            - (f (i - m / 2) - twF (i % m - m / 2) * f i)) * twI (i % m - m / 2)
        = twI (i % m - m / 2) * twF (i % m - m / 2) * (2 * f i) := by ring
      _ = 2 * f i := by rw [ht, one_mul]

lemma stageI_smul (Q m : ℕ) (tw : ℕ → ZMod Q) (c : ZMod Q) (f : ℕ → ZMod Q) (i : ℕ) :
    nttStageI Q m tw (fun x => c * f x) i = c * nttStageI Q m tw f i := by
  simp only [nttStageI]
  by_cases h : i % m < m / 2
  · rw [if_pos h, if_pos h]; ring
  · rw [if_neg h, if_neg h]; ring

lemma foldI_smul (Q : ℕ) (ω : ZMod Q) (L : ℕ) :
    ∀ (ss : List ℕ) (c : ZMod Q) (f : ℕ → ZMod Q) (i : ℕ),
    ss.foldl (fun acc s => nttStageI Q (2 ^ (s + 1)) (stageTwInv Q ω L s) acc)
      (fun x => c * f x) i
    = c * ss.foldl (fun acc s => nttStageI Q (2 ^ (s + 1)) (stageTwInv Q ω L s) acc) f i
  | [], c, f, i => rfl
  | s :: t, c, f, i => by
    rw [List.foldl_cons, List.foldl_cons]
    have hstep : nttStageI Q (2 ^ (s + 1)) (stageTwInv Q ω L s) (fun x => c * f x)
        = fun x => c * nttStageI Q (2 ^ (s + 1)) (stageTwInv Q ω L s) f x :=
      funext (stageI_smul Q (2 ^ (s + 1)) (stageTwInv Q ω L s) c f)
    rw [hstep]
    exact foldI_smul Q ω L t c _ i

lemma stageTwInv_mul_stageTw (Q : ℕ) [Fact (Nat.Prime Q)] (ω : ZMod Q) (hω : ω ≠ 0)
    (L s j : ℕ) : stageTwInv Q ω L s j * stageTw Q ω L s j = 1 := by
  unfold stageTw stageTwInv
  rw [← mul_pow, ← mul_pow]
  have h2 : 2 ≤ Q := (Fact.out : Nat.Prime Q).two_le
  have h1 : ω ^ (Q - 2) * ω = 1 := by
    have hss : ω ^ (Q - 2) * ω = ω ^ (Q - 1) := by
      rw [← pow_succ]
      congr 1
      omega
    rw [hss, ZMod.pow_card_sub_one_eq_one hω]
  rw [h1, one_pow, one_pow]

lemma foldI_foldF (Q : ℕ) [Fact (Nat.Prime Q)] (ω : ZMod Q) (hω : ω ≠ 0) (L : ℕ)
    (ss : List ℕ) (f : ℕ → ZMod Q) (i : ℕ) :
    ss.reverse.foldl (fun acc s => nttStageI Q (2 ^ (s + 1)) (stageTwInv Q ω L s) acc)
      (ss.foldl (fun acc s => nttStageF Q (2 ^ (s + 1)) (stageTw Q ω L s) acc) f) i
    = 2 ^ ss.length * f i := by
  induction ss using List.reverseRecOn generalizing i with
  | nil => simp
  | append_singleton t s ih =>
    rw [List.foldl_append, List.foldl_cons, List.foldl_nil, List.reverse_append]
    simp only [List.reverse_singleton, List.singleton_append, List.foldl_cons]
    have hm : (2 ^ (s + 1)) % 2 = 0 := by
      have : (2:ℕ) ∣ 2 ^ (s + 1) := dvd_pow_self 2 (Nat.succ_ne_zero s)
      omega
    have hm0 : 0 < 2 ^ (s + 1) := Nat.pos_pow_of_pos (s + 1) (by decide)
    have hcancel : nttStageI Q (2 ^ (s + 1)) (stageTwInv Q ω L s)
        (nttStageF Q (2 ^ (s + 1)) (stageTw Q ω L s)
          (t.foldl (fun acc u => nttStageF Q (2 ^ (u + 1)) (stageTw Q ω L u) acc) f))
        = fun x => 2 *
          (t.foldl (fun acc u => nttStageF Q (2 ^ (u + 1)) (stageTw Q ω L u) acc) f) x :=
      funext (stageI_stageF Q (2 ^ (s + 1)) (stageTw Q ω L s) (stageTwInv Q ω L s)
        hm hm0 (fun j _ => stageTwInv_mul_stageTw Q ω hω L s j) _)
    rw [hcancel, foldI_smul, ih]
    rw [List.length_append, List.length_singleton, pow_succ]
    ring



/-- C9: for `N = 2^L` a power of two, `Q` an NTT-friendly prime and any
root `ω` (with `ω` and `N` invertible mod `Q`, as the prime NTT-friendly
parameters guarantee), the inverse NTT undoes the forward NTT on every
polynomial: `NTTInverse(NTTForward(p)) = p` coefficient-wise. -/
theorem c9_ntt_roundtrip (Q L : ℕ) (hQ : Nat.Prime Q) (ω : ZMod Q) (hω : ω ≠ 0)
    (hN : ((2 ^ L : ℕ) : ZMod Q) ≠ 0) (p : ℕ → ZMod Q) (i : ℕ) (hi : i < 2 ^ L) :
    nttInverse Q ω L (nttForward Q ω L p) i = p i := by
  haveI := Fact.mk hQ
  unfold nttInverse nttForward
  simp only [bitRevPerm]
  have hfold := foldI_foldF Q ω hω L (List.range L) (bitRevPerm L p) (revBits L i)
  simp only [bitRevPerm, List.length_range] at hfold
  rw [hfold, revBits_revBits L i hi]
  have hcast : ((2 ^ L : ℕ) : ZMod Q) = (2 : ZMod Q) ^ L := by push_cast; ring
  rw [← mul_assoc, ← hcast]
  have hone : ((2 ^ L : ℕ) : ZMod Q) ^ (Q - 2) * ((2 ^ L : ℕ) : ZMod Q) = 1 := by
    have h2 : 2 ≤ Q := hQ.two_le
    have hss : ((2 ^ L : ℕ) : ZMod Q) ^ (Q - 2) * ((2 ^ L : ℕ) : ZMod Q)
        = ((2 ^ L : ℕ) : ZMod Q) ^ (Q - 1) := by
      rw [← pow_succ]
      congr 1
      omega
    rw [hss, ZMod.pow_card_sub_one_eq_one hN]
  rw [hone, one_mul]

/-- C9 witness: the round trip evaluated at `Q = 5`, `N = 2`, `ω = 2`
(a primitive 4th root of unity mod 5) on a concrete polynomial. -/
theorem c9_witness :
    Nat.Prime 5 ∧ (2 : ZMod 5) ≠ 0 ∧ ((2 ^ 1 : ℕ) : ZMod 5) ≠ 0 ∧ 0 < 2 ^ 1 ∧
    nttInverse 5 2 1 (nttForward 5 2 1 (fun x => if x = 0 then 1 else 3)) 0 = 1 :=
  ⟨by norm_num, by decide, by decide, by decide,
    c9_ntt_roundtrip 5 1 (by norm_num) 2 (by decide) (by decide)
      (fun x => if x = 0 then 1 else 3) 0 (by decide)⟩

end LuxFhe
